import Mathlib

/-!
Verification of the OCR-to-placement pipeline of the `uma` race tracker.

The JavaScript source (`src/js/ocr.js`, `src/js/storage.js`, `src/js/ui.js`)
is embedded shallowly: strings become `List Char`, the regular expressions
used by the code become explicit scanners with the same matching semantics,
pixel coordinates become rationals, thrown exceptions become `Except`, and
the `'E'` error marker becomes the `Placement.unknown` sentinel.
-/

/-- A placement slot value: an integer rank, or the `'E'` error marker. -/
inductive Placement where
  | unknown : Placement
  | val : ℕ → Placement
deriving DecidableEq, Repr

/-! ### Character classes used by the JavaScript regular expressions -/

/-- `\d` -/
def isDigit (c : Char) : Bool := decide ('0' ≤ c ∧ c ≤ '9')

/-- `\s` (the whitespace the code manipulates: space, tab, newlines). -/
def isSpace (c : Char) : Bool :=
  c = ' ' ∨ c = '\t' ∨ c = '\n' ∨ c = '\x0b' ∨ c = '\x0c' ∨ c = '\r'

/-- Lower-case a single ASCII letter (for the `/i` regex flags). -/
def lowerChar (c : Char) : Char :=
  if 'A' ≤ c ∧ c ≤ 'Z' then Char.ofNat (c.toNat + 32) else c

/-- `parseInt` on a string of decimal digits. -/
def natOfDigits (ds : List Char) : ℕ :=
  ds.foldl (fun acc c => 10 * acc + (c.toNat - 48)) 0

/-- Maximal leading digit run (`\d+` with no backtracking possible). -/
def digitRun : List Char → List Char × List Char
  | [] => ([], [])
  | c :: cs =>
    if isDigit c then
      let p := digitRun cs
      (c :: p.1, p.2)
    else ([], c :: cs)

/-- Maximal leading whitespace run (`\s*`). -/
def spaceRun : List Char → List Char × List Char
  | [] => ([], [])
  | c :: cs =>
    if isSpace c then
      let p := spaceRun cs
      (c :: p.1, p.2)
    else ([], c :: cs)

/-- Match `st|nd|rd|th` case-insensitively at the head; return the rest. -/
def suffixAt : List Char → Option (List Char)
  | a :: b :: rest =>
    let p := (lowerChar a, lowerChar b)
    if p = ('s', 't') ∨ p = ('n', 'd') ∨ p = ('r', 'd') ∨ p = ('t', 'h') then
      some rest
    else none
  | _ => none

/-- Match the regex `(\d+)\s*(?:st|nd|rd|th)` (flag `i`) at the head of `s`.
Returns the captured number and the total length of the match.  Greedy
`\d+`/`\s*` never need to backtrack here because a shortened run would put a
digit (resp. a space) where the ordinal suffix must start. -/
def matchOrdinalAt (s : List Char) : Option (ℕ × ℕ) :=
  let d := digitRun s
  if d.1 = [] then none
  else
    let w := spaceRun d.2
    match suffixAt w.2 with
    | some _ => some (natOfDigits d.1, d.1.length + w.1.length + 2)
    | none => none

/-- `text.matchAll(/(\d+)\s*(?:st|nd|rd|th)/gi)`: left-to-right scan; after a
match of length `len` the next search resumes `len` characters further on
(`skip` counts characters still inside the previous match).  Returns the
captured value and the match index for each match. -/
def scanOrdinalsAux : List Char → ℕ → ℕ → List (ℕ × ℕ)
  | [], _, _ => []
  | c :: cs, i, skip =>
    if 0 < skip then scanOrdinalsAux cs (i + 1) (skip - 1)
    else
      match matchOrdinalAt (c :: cs) with
      | some (v, len) => (v, i) :: scanOrdinalsAux cs (i + 1) (len - 1)
      | none => scanOrdinalsAux cs (i + 1) 0

/-- `text.split('\n')` (JavaScript semantics: `''.split('\n') = ['']`). -/
def splitLines : List Char → List (List Char)
  | [] => [[]]
  | c :: cs =>
    if c = '\n' then [] :: splitLines cs
    else
      match splitLines cs with
      | l :: ls => (c :: l) :: ls
      | [] => [[c]]

/-- `String.prototype.trim()`. -/
def jsTrim (s : List Char) : List Char :=
  ((s.dropWhile isSpace).reverse.dropWhile isSpace).reverse

/-! ### `parseOCRTextFallback` (src/js/ocr.js lines 494-545) -/

/-- One entry of the `positionsWithLines` array built by the fallback
parser: a placement value together with its line number and match index. -/
structure Pos where
  placement : ℕ
  line : ℕ
  index : ℕ
deriving DecidableEq, Repr

/-- The comparator `(a, b) => a.line - b.line || a.index - b.index` as the
total preorder it sorts by. -/
def posLe (a b : Pos) : Prop :=
  a.line < b.line ∨ (a.line = b.line ∧ a.index ≤ b.index)

instance (a b : Pos) : Decidable (posLe a b) := by
  unfold posLe; infer_instance

/-- Ordinal matches of one line, keeping only values in `[1,18]`
(the `if (num >= 1 && num <= 18)` guard). -/
def lineMatches (line : List Char) (ln : ℕ) : List Pos :=
  (scanOrdinalsAux line 0 0).filterMap fun m =>
    if 1 ≤ m.1 ∧ m.1 ≤ 18 then some ⟨m.1, ln, m.2⟩ else none

/-- The `for (const line of lines)` loop with its `lineNumber++` counter. -/
def posLoop : List (List Char) → ℕ → List Pos
  | [], _ => []
  | l :: ls, k => lineMatches l k ++ posLoop ls (k + 1)

/-- The `positionsWithLines` array: all in-range ordinal matches, tagged
with their 1-based line number and match index. -/
def positionsWithLines (text : List Char) : List Pos :=
  posLoop (splitLines text) 1

/-- `parseOCRTextFallback(text, imageWidth, imageHeight)`: line-ordered
parsing of the recognized text; the first 15 in-range ordinal matches in
(line, index) order fill slots 0-14, remaining slots are `'E'`.
The two dimension arguments are unused by the source as well. -/
def parseOCRTextFallback (text : List Char) (imageWidth imageHeight : ℚ) :
    List Placement :=
  let sorted := List.insertionSort posLe (positionsWithLines text)
  let orderedPlacements := sorted.map fun p => p.placement
  let finalPlacements := (orderedPlacements.take 15).map Placement.val
  finalPlacements ++ List.replicate (15 - finalPlacements.length) Placement.unknown

/-! ### `clampRank` / `detectRankingFromText` (src/js/ocr.js lines 196-220)

`detectRankingFromText` tries three anchored patterns on the
whitespace-stripped text, in order: `^(\d{1,2})(st|nd|rd|th)$` (flag `i`),
`^(\d{1,2})[\])|!]+$`, `^(\d{1,2})$`.  A digit run of three or more
characters defeats all three patterns (after `\d{1,2}` a further digit can
match neither the tail pattern nor the end anchor). -/

/-- `clampRank` (the `isNaN` branch is unreachable: the argument always
comes from `parseInt` on a nonempty digit string). -/
def clampRank (n : ℕ) : ℕ :=
  if n < 1 then 1 else if n > 18 then 18 else n

/-- Tail of pattern A: exactly an ordinal suffix, then end of string. -/
def isOrdSuffixOnly (rest : List Char) : Bool :=
  match suffixAt rest with
  | some r => r = []
  | none => false

/-- Tail of pattern B: one or more of `] ) | !`, then end of string. -/
def isBracketRun (rest : List Char) : Bool :=
  ¬ rest = [] ∧ rest.all fun c => c = ']' ∨ c = ')' ∨ c = '|' ∨ c = '!'

/-- `detectRankingFromText` (per-region mode). -/
def detectRankingFromText (text : List Char) : Option ℕ :=
  if text = [] then none
  else
    let t := text.filter fun c => ¬ isSpace c
    let d := digitRun t
    if d.1.length = 0 ∨ 2 < d.1.length then none
    else if isOrdSuffixOnly d.2 then some (clampRank (natOfDigits d.1))
    else if isBracketRun d.2 then some (clampRank (natOfDigits d.1))
    else if d.2 = [] then some (clampRank (natOfDigits d.1))
    else none

/-! ### Per-region pass (src/js/ocr.js lines 70-191)

The canvas and Tesseract plumbing is external I/O; its pure content is:
for each of the 15 regions a sequence of recognition attempts is made
(bands x scales x psm modes), every attempt either throws (caught by the
local `try`/`catch`) or yields raw text; the first attempt whose trimmed
text passes `detectRankingFromText` fixes the region's placement, and a
region with no successful attempt keeps the `'E'` default. -/

/-- Outcome of the attempt ladder of one region: the first successful
detection, skipping attempts whose recognition threw. -/
def regionDetect (attempts : List (Except String (List Char))) : Option ℕ :=
  attempts.foldl
    (fun found a =>
      match found with
      | some v => some v
      | none =>
        match a with
        | .error _ => none
        | .ok t => detectRankingFromText (jsTrim t))
    none

/-- `processFocusedRankRegions`: one placement per region index, `'E'` when
nothing was detected. -/
def processFocusedRankRegions (attempts : Fin 15 → List (Except String (List Char))) :
    List Placement :=
  List.ofFn fun i : Fin 15 =>
    match regionDetect (attempts i) with
    | some v => Placement.val v
    | none => Placement.unknown

/-- The acceptance filter of `processImageWithOCR`:
`v => typeof v === 'number' && v >= 1 && v <= 18`. -/
def countResolved (ps : List Placement) : ℕ :=
  (ps.filter fun p =>
    match p with
    | Placement.val n => decide (1 ≤ n ∧ n ≤ 18)
    | Placement.unknown => false).length

/-! ### Whole-image positional parse (src/js/ocr.js lines 333-489) -/

/-- A word bounding box `{x0, y0, x1, y1}`. -/
structure BBox where
  x0 : ℚ
  y0 : ℚ
  x1 : ℚ
  y1 : ℚ
deriving DecidableEq, Repr

/-- A recognized word with optional position data. -/
structure Word where
  text : List Char
  bbox : Option BBox
deriving DecidableEq, Repr

/-- A recognition line (only its optional `words` field is consulted). -/
structure Line where
  words : Option (List Word)
deriving DecidableEq, Repr

/-- A recognition paragraph (only its optional `lines` field is consulted). -/
structure Para where
  lines : Option (List Line)
deriving DecidableEq, Repr

/-- The shape of `result.data` that `parseOCRWithPositions` probes. -/
structure OCRData where
  width : Option ℚ
  height : Option ℚ
  words : Option (List Word)
  lines : Option (List Line)
  paragraphs : Option (List Para)
  text : List Char
deriving DecidableEq, Repr

/-- JavaScript `x || d` on a possibly-absent number (`0` is falsy). -/
def jsOr (o : Option ℚ) (d : ℚ) : ℚ :=
  match o with
  | some q => if q = 0 then d else q
  | none => d

/-- Word collection from `ocrData.lines`: lines without a `words` field are
skipped; the accumulator stays `null` until the first hit. -/
def wordsFromLines (ls : List Line) : Option (List Word) :=
  ls.foldl
    (fun acc l =>
      match l.words with
      | none => acc
      | some ws => some (acc.getD [] ++ ws))
    none

/-- Word collection from `ocrData.paragraphs`. -/
def wordsFromParagraphs (ps : List Para) : Option (List Word) :=
  ps.foldl
    (fun acc p =>
      match p.lines with
      | none => acc
      | some ls =>
        ls.foldl
          (fun acc2 l =>
            match l.words with
            | none => acc2
            | some ws => some (acc2.getD [] ++ ws))
          acc)
    none

/-- The `else if` probe chain for `lines` / `paragraphs`. -/
def altWords (d : OCRData) : Option (List Word) :=
  match d.lines with
  | some ls => wordsFromLines ls
  | none =>
    match d.paragraphs with
    | some ps => wordsFromParagraphs ps
    | none => none

/-- `if (ocrData.words && ocrData.words.length > 0) ... else if ...`. -/
def gatheredWords (d : OCRData) : Option (List Word) :=
  match d.words with
  | some ws => if 0 < ws.length then some ws else altWords d
  | none => altWords d

/-- JavaScript truthiness of the `rankNum` variable (`null` or `0` falsy). -/
def optTruthy (o : Option ℕ) : Bool :=
  match o with
  | some v => ¬ v = 0
  | none => false

/-- First match of `/(\d+)\s*(?:st|nd|rd|th)/i` anywhere in the text. -/
def firstOrdinalVal (t : List Char) : Option ℕ :=
  (scanOrdinalsAux t 0 0).head?.map fun m => m.1

/-- Match `(\d+)[\]\[|)(!]` at the head of the string. -/
def matchBracketAt (s : List Char) : Option ℕ :=
  let d := digitRun s
  if d.1 = [] then none
  else
    match d.2 with
    | c :: _ =>
      if c = ']' ∨ c = '[' ∨ c = '|' ∨ c = ')' ∨ c = '(' ∨ c = '!' then
        some (natOfDigits d.1)
      else none
    | [] => none

/-- First match of `/(\d+)[\]\[|)(!]/` anywhere in the text. -/
def firstBracketVal : List Char → Option ℕ
  | [] => none
  | c :: cs =>
    match matchBracketAt (c :: cs) with
    | some v => some v
    | none => firstBracketVal cs

/-- `/^\d{1,2}$/.test(text)`. -/
def isOneOrTwoDigits (t : List Char) : Bool :=
  (t.length = 1 ∨ t.length = 2) ∧ t.all isDigit

/-- The three-pattern cascade of `parseOCRWithPositions` on one (trimmed)
word, including the final `rankNum && rankNum >= 1 && rankNum <= 18` guard. -/
def wordRank (t : List Char) : Option ℕ :=
  let s1 := firstOrdinalVal t
  let s2 :=
    if optTruthy s1 then s1
    else
      match firstBracketVal t with
      | some v => some v
      | none => s1
  let s3 :=
    if optTruthy s2 then s2
    else
      if isOneOrTwoDigits t ∧ 1 ≤ natOfDigits t ∧ natOfDigits t ≤ 18 then
        some (natOfDigits t)
      else s2
  match s3 with
  | some v => if 1 ≤ v ∧ v ≤ 18 then some v else none
  | none => none

/-- An accepted ranking with its pixel center. -/
structure Ranking where
  rank : ℕ
  x : ℚ
  y : ℚ
deriving DecidableEq, Repr

/-- The word loop of `parseOCRWithPositions`: trim, require a bounding box,
require the center inside the ranking band, then run the pattern cascade. -/
def extractRankings (ws : List Word) (top bottom : ℚ) : List Ranking :=
  ws.filterMap fun w =>
    match w.bbox with
    | none => none
    | some b =>
      let cx := (b.x0 + b.x1) / 2
      let cy := (b.y0 + b.y1) / 2
      if cy < top ∨ bottom < cy then none
      else
        match wordRank (jsTrim w.text) with
        | some v => some ⟨v, cx, cy⟩
        | none => none

/-- The spatial mapping of one ranking:
`col = floor((x / imageWidth) * 5)`,
`row = floor(((y - top) / (bottom - top)) * 3)`,
`gridIndex = max(0, min(14, row * 5 + col))`. -/
def slotFor (r : Ranking) (imageWidth top bottom : ℚ) : ℕ :=
  let col : ℤ := ⌊r.x / imageWidth * 5⌋
  let row : ℤ := ⌊(r.y - top) / (bottom - top) * 3⌋
  (max 0 (min 14 (row * 5 + col))).toNat

/-- The assignment loop `placements[gridIndex] = ranking.rank` over the
rankings in word-scan order, starting from 15 `'E'` entries. -/
def applyRankings (rankings : List Ranking) (imageWidth top bottom : ℚ) :
    List Placement :=
  rankings.foldl
    (fun acc r => acc.set (slotFor r imageWidth top bottom) (Placement.val r.rank))
    (List.replicate 15 Placement.unknown)

/-- The last ranking in scan order that maps to slot `i`: the winner of the
unconditional-overwrite assignment loop. -/
def lastHit (rankings : List Ranking) (imageWidth top bottom : ℚ) (i : ℕ) :
    Option Ranking :=
  rankings.foldl
    (fun acc r => if slotFor r imageWidth top bottom = i then some r else acc)
    none

/-- `parseOCRWithPositions(ocrData)`. -/
def parseOCRWithPositions (d : OCRData) : List Placement :=
  let imageHeight := jsOr d.height 2412
  let imageWidth := jsOr d.width 1080
  let rankingAreaTop := imageHeight * (45 / 100)
  let rankingAreaBottom := imageHeight * (75 / 100)
  match gatheredWords d with
  | none => parseOCRTextFallback d.text imageWidth imageHeight
  | some ws =>
    if ws.length = 0 then parseOCRTextFallback d.text imageWidth imageHeight
    else applyRankings (extractRankings ws rankingAreaTop rankingAreaBottom)
        imageWidth rankingAreaTop rankingAreaBottom

/-! ### Pipeline orchestrator (src/js/ocr.js lines 6-62)

`processImageWithOCR` runs the per-region pass, accepts it when at least 5
slots hold a number in `[1,18]`, and otherwise runs the whole-image
recognition; a throw of that recognition call reaches the surrounding
`catch`, which rethrows a single `Error` to the caller. -/

def processImageWithOCR (attempts : Fin 15 → List (Except String (List Char)))
    (whole : Except String OCRData) : Except String (List Placement) :=
  let regionPlacements := processFocusedRankRegions attempts
  if 5 ≤ countResolved regionPlacements then Except.ok regionPlacements
  else
    match whole with
    | .error e => .error e
    | .ok d => .ok (parseOCRWithPositions d)

/-! ### `extractNumbersFromRegionText` candidates and `parseRegionResults`
(src/js/ocr.js lines 662-727) -/

/-- Candidate source type (`'ordinal'` or `'plain'` in the source). -/
inductive CandType where
  | ordinal : CandType
  | plain : CandType
deriving DecidableEq, Repr

/-- A scored candidate `{value, type, confidence}`. -/
structure Candidate where
  value : ℕ
  typ : CandType
  confidence : ℚ
deriving DecidableEq, Repr

/-- The confidence the extractor attaches to each candidate type
(`1.0` for ordinal, `0.6` for plain). -/
def confOf : CandType → ℚ
  | CandType.ordinal => 1
  | CandType.plain => 3 / 5

/-- The sort comparator of `parseRegionResults` (only its sign matters). -/
def cmpCand (a b : Candidate) : ℚ :=
  if a.typ = CandType.ordinal ∧ ¬ b.typ = CandType.ordinal then -1
  else if b.typ = CandType.ordinal ∧ ¬ a.typ = CandType.ordinal then 1
  else b.confidence - a.confidence

/-- The total preorder the (stable) JavaScript sort realizes. -/
def candLe (a b : Candidate) : Prop := cmpCand a b ≤ 0

instance (a b : Candidate) : Decidable (candLe a b) := by
  unfold candLe; infer_instance

/-- `result.numbers.sort(comparator)` (JavaScript sort is stable). -/
def sortNumbers (cs : List Candidate) : List Candidate :=
  List.insertionSort candLe cs

/-- One entry of the `allResults` array fed to `parseRegionResults`. -/
structure RegionResult where
  region : ℕ
  numbers : List Candidate
deriving Repr

/-- `parseRegionResults(regionResults)`: per region, sort the candidates and
keep the best one; regions with no candidates keep the `'E'` default. -/
def parseRegionResults (rs : List RegionResult) : List Placement :=
  rs.foldl
    (fun acc r =>
      if r.region < 15 ∧ ¬ r.numbers = [] then
        match (sortNumbers r.numbers).head? with
        | some best => acc.set r.region (Placement.val best.value)
        | none => acc
      else acc)
    (List.replicate 15 Placement.unknown)

/-! ### Persistence boundary (src/js/storage.js lines 39-60,
src/js/ui.js lines 137-145)

A placement reaching this boundary is either a number or the `'E'`
string; `parseInt('E')` is `NaN`. -/

/-- A value in a placements array handed to the persistence boundary. -/
inductive RawPlacement where
  | sentinel : RawPlacement
  | int : ℤ → RawPlacement
deriving DecidableEq, Repr

/-- `parseInt` at this boundary (`NaN` becomes `none`). -/
def jsParseInt : RawPlacement → Option ℤ
  | RawPlacement.sentinel => none
  | RawPlacement.int n => some n

/-- `validatePlacements` (ui.js): `isNaN(p) || p < 1 || p > 18` fails. -/
def validatePlacements (ps : List RawPlacement) : Bool :=
  ps.all fun p =>
    match p with
    | RawPlacement.sentinel => false
    | RawPlacement.int n => decide (1 ≤ n ∧ n ≤ 18)

/-- `addRace(date, placements)` (storage.js): throws unless the array has
exactly 15 entries, each parsing to an integer in `[1,18]`; on success the
stored record holds the parsed integers. -/
def addRace (ps : List RawPlacement) : Except String (List ℤ) :=
  if ¬ ps.length = 15 then Except.error "Placements must be an array of 15 numbers"
  else if ps.any fun p =>
      match jsParseInt p with
      | none => true
      | some n => decide (n < 1 ∨ 18 < n) then
    Except.error "All placements must be numbers between 1 and 18"
  else Except.ok (ps.map fun p => (jsParseInt p).getD 0)

/-! ### A clean grid rendering (the input family of the round-trip property)

These definitions construct the input text: one ordinal token per slot
("1st", "2nd", ..., "15th"), tokens separated by single spaces within a
line, lines separated by newlines, in grid order. -/

/-- Decimal digits of a number below 100. -/
def natToChars (n : ℕ) : List Char :=
  if n < 10 then [Char.ofNat (48 + n)]
  else [Char.ofNat (48 + n / 10), Char.ofNat (48 + n % 10)]

/-- English ordinal suffix for ranks 1-18. -/
def ordinalSuffix (n : ℕ) : List Char :=
  if n = 1 then ['s', 't']
  else if n = 2 then ['n', 'd']
  else if n = 3 then ['r', 'd']
  else ['t', 'h']

/-- The ordinal token of a rank: digits followed by its suffix. -/
def ordinalToken (n : ℕ) : List Char :=
  natToChars n ++ ordinalSuffix n

/-- One rendered line: tokens joined by single spaces. -/
def renderLine : List ℕ → List Char
  | [] => []
  | [n] => ordinalToken n
  | n :: m :: rest => ordinalToken n ++ ' ' :: renderLine (m :: rest)

/-- The rendered text: lines joined by newlines. -/
def renderText : List (List ℕ) → List Char
  | [] => []
  | [r] => renderLine r
  | r :: s :: rest => renderLine r ++ '\n' :: renderText (s :: rest)

/-- Match positions the scanner produces on a rendered line starting at
index `i`: each token matches at its own start index. -/
def expectedScan : List ℕ → ℕ → List (ℕ × ℕ)
  | [], _ => []
  | n :: rest, i => (n, i) :: expectedScan rest (i + (ordinalToken n).length + 1)

/-! ### Lemmas: the scanner on a clean rendering -/

/-- The token of an in-range rank matches the ordinal regex at its head,
whatever follows. -/
theorem matchOrdinalAt_token (n : ℕ) (h1 : 1 ≤ n) (h18 : n ≤ 18)
    (rest : List Char) :
    matchOrdinalAt (ordinalToken n ++ rest) = some (n, (ordinalToken n).length) := by
  interval_cases n <;> rfl

theorem ordinalToken_ne_nil (n : ℕ) : ordinalToken n ≠ [] := by
  unfold ordinalToken natToChars
  split <;> simp

theorem ordinalToken_len_pos (n : ℕ) : 0 < (ordinalToken n).length := by
  have h := ordinalToken_ne_nil n
  cases ho : ordinalToken n with
  | nil => exact absurd ho h
  | cons a l => simp

/-- Skipping over the remainder of a consumed match. -/
theorem scanOrdinalsAux_skip (pre : List Char) :
    ∀ (l : List Char) (i : ℕ),
      scanOrdinalsAux (pre ++ l) i pre.length = scanOrdinalsAux l (i + pre.length) 0 := by
  induction pre with
  | nil => intro l i; simp
  | cons c pre ih =>
    intro l i
    rw [List.cons_append]
    rw [scanOrdinalsAux]
    simp only [List.length_cons, Nat.add_sub_cancel, if_pos (Nat.succ_pos pre.length)]
    rw [ih l (i + 1)]
    ring_nf

/-- Scanning a line that starts with an in-range token records the token's
value at the current index and resumes right after the token. -/
theorem scanOrdinalsAux_token (n : ℕ) (h1 : 1 ≤ n) (h18 : n ≤ 18)
    (tail : List Char) (i : ℕ) :
    scanOrdinalsAux (ordinalToken n ++ tail) i 0 =
      (n, i) :: scanOrdinalsAux tail (i + (ordinalToken n).length) 0 := by
  cases ho : ordinalToken n with
  | nil => exact absurd ho (ordinalToken_ne_nil n)
  | cons c cpre =>
    have hm : matchOrdinalAt (c :: (cpre ++ tail)) = some (n, cpre.length + 1) := by
      have := matchOrdinalAt_token n h1 h18 tail
      rw [ho] at this
      simpa using this
    rw [List.cons_append, scanOrdinalsAux]
    simp only [Nat.lt_irrefl, if_neg (by simp : ¬ 0 < 0), hm]
    have hskip := scanOrdinalsAux_skip cpre tail (i + 1)
    simp only [Nat.add_sub_cancel]
    rw [hskip]
    have harith : i + 1 + cpre.length = i + (c :: cpre).length := by
      simp only [List.length_cons]; omega
    simp [harith]

/-- A leading space is skipped without producing a match. -/
theorem scanOrdinalsAux_space (l : List Char) (i : ℕ) :
    scanOrdinalsAux (' ' :: l) i 0 = scanOrdinalsAux l (i + 1) 0 := by
  rw [scanOrdinalsAux]
  have hm : matchOrdinalAt (' ' :: l) = none := by
    unfold matchOrdinalAt digitRun
    simp [isDigit]
  simp [hm]

/-- The scanner output on a rendered line. -/
theorem scanOrdinalsAux_renderLine (ns : List ℕ)
    (h : ∀ n ∈ ns, 1 ≤ n ∧ n ≤ 18) :
    ∀ i, scanOrdinalsAux (renderLine ns) i 0 = expectedScan ns i := by
  induction ns with
  | nil => intro i; rfl
  | cons n rest ih =>
    intro i
    have hn := h n (by simp)
    have hrest : ∀ m ∈ rest, 1 ≤ m ∧ m ≤ 18 := fun m hm => h m (by simp [hm])
    cases rest with
    | nil =>
      rw [renderLine]
      have := scanOrdinalsAux_token n hn.1 hn.2 [] i
      rw [List.append_nil] at this
      rw [this]
      rfl
    | cons m rest2 =>
      rw [renderLine, scanOrdinalsAux_token n hn.1 hn.2 _ i,
        scanOrdinalsAux_space, ih hrest]
      rfl

theorem expectedScan_map_fst (ns : List ℕ) :
    ∀ i, (expectedScan ns i).map Prod.fst = ns := by
  induction ns with
  | nil => intro i; rfl
  | cons n rest ih => intro i; simp [expectedScan, ih]

theorem expectedScan_lower_bound (ns : List ℕ) :
    ∀ i, ∀ m ∈ expectedScan ns i, i ≤ m.2 := by
  induction ns with
  | nil => intro i m hm; simp [expectedScan] at hm
  | cons n rest ih =>
    intro i m hm
    rw [expectedScan] at hm
    rcases List.mem_cons.mp hm with h | h
    · subst h; exact Nat.le_refl i
    · have := ih _ m h
      omega

theorem expectedScan_pairwise (ns : List ℕ) :
    ∀ i, (expectedScan ns i).Pairwise fun a b => a.2 < b.2 := by
  induction ns with
  | nil => intro i; simp [expectedScan]
  | cons n rest ih =>
    intro i
    rw [expectedScan]
    refine List.Pairwise.cons ?_ (ih _)
    intro m hm
    have hlow := expectedScan_lower_bound rest _ m hm
    have hpos := ordinalToken_len_pos n
    simp only
    omega

theorem filterMap_inRange (ln : ℕ) :
    ∀ l : List (ℕ × ℕ), (∀ m ∈ l, 1 ≤ m.1 ∧ m.1 ≤ 18) →
      (l.filterMap fun m =>
          if 1 ≤ m.1 ∧ m.1 ≤ 18 then some (⟨m.1, ln, m.2⟩ : Pos) else none) =
        l.map fun m => (⟨m.1, ln, m.2⟩ : Pos) := by
  intro l
  induction l with
  | nil => intro hmem; rfl
  | cons m rest ih =>
    intro hmem
    have hm := hmem m (by simp)
    rw [List.filterMap_cons, List.map_cons, if_pos hm,
      ih fun x hx => hmem x (by simp [hx])]

/-- `lineMatches` on a rendered line of in-range values keeps every match. -/
theorem lineMatches_renderLine (ns : List ℕ) (ln : ℕ)
    (h : ∀ n ∈ ns, 1 ≤ n ∧ n ≤ 18) :
    lineMatches (renderLine ns) ln =
      (expectedScan ns 0).map fun m => ⟨m.1, ln, m.2⟩ := by
  unfold lineMatches
  rw [scanOrdinalsAux_renderLine ns h 0]
  refine filterMap_inRange ln _ ?_
  intro m hm
  have hmm : m.1 ∈ (expectedScan ns 0).map Prod.fst := List.mem_map_of_mem Prod.fst hm
  rw [expectedScan_map_fst] at hmm
  exact h m.1 hmm

theorem splitLines_ne_nil (l : List Char) : splitLines l ≠ [] := by
  induction l with
  | nil => simp [splitLines]
  | cons c cs ih =>
    rw [splitLines]
    split
    · simp
    · cases h : splitLines cs with
      | nil => exact absurd h ih
      | cons a as => simp

theorem splitLines_no_newline (l : List Char) (h : '\n' ∉ l) :
    splitLines l = [l] := by
  induction l with
  | nil => rfl
  | cons c cs ih =>
    have hc : ¬ c = '\n' := fun hcc => h (by simp [hcc])
    have hcs : '\n' ∉ cs := fun hin => h (by simp [hin])
    rw [splitLines, if_neg hc, ih hcs]

theorem splitLines_append_newline (l t : List Char) (h : '\n' ∉ l) :
    splitLines (l ++ '\n' :: t) = l :: splitLines t := by
  induction l with
  | nil => simp [splitLines]
  | cons c cs ih =>
    have hc : ¬ c = '\n' := fun hcc => h (by simp [hcc])
    have hcs : '\n' ∉ cs := fun hin => h (by simp [hin])
    rw [List.cons_append, splitLines, if_neg hc, ih hcs]

theorem ordinalToken_no_newline (n : ℕ) (h1 : 1 ≤ n) (h18 : n ≤ 18) :
    '\n' ∉ ordinalToken n := by
  interval_cases n <;> decide

theorem renderLine_no_newline (ns : List ℕ) (h : ∀ n ∈ ns, 1 ≤ n ∧ n ≤ 18) :
    '\n' ∉ renderLine ns := by
  induction ns with
  | nil => simp [renderLine]
  | cons n rest ih =>
    have hn := h n (by simp)
    have hrest : ∀ m ∈ rest, 1 ≤ m ∧ m ≤ 18 := fun m hm => h m (by simp [hm])
    cases rest with
    | nil => exact ordinalToken_no_newline n hn.1 hn.2
    | cons m rest2 =>
      rw [renderLine]
      intro hin
      rcases List.mem_append.mp hin with hin | hin
      · exact ordinalToken_no_newline n hn.1 hn.2 hin
      · rcases List.mem_cons.mp hin with hin | hin
        · exact absurd hin.symm (by decide)
        · exact ih hrest hin

/-- `splitLines` recovers exactly the rendered rows. -/
theorem splitLines_renderText (rows : List (List ℕ))
    (h : ∀ r ∈ rows, ∀ n ∈ r, 1 ≤ n ∧ n ≤ 18) (hne : rows ≠ []) :
    splitLines (renderText rows) = rows.map renderLine := by
  induction rows with
  | nil => exact absurd rfl hne
  | cons r rest ih =>
    have hr := h r (by simp)
    have hrest : ∀ q ∈ rest, ∀ n ∈ q, 1 ≤ n ∧ n ≤ 18 :=
      fun q hq => h q (by simp [hq])
    cases rest with
    | nil =>
      rw [renderText, List.map]
      exact splitLines_no_newline _ (renderLine_no_newline r hr)
    | cons s rest2 =>
      rw [renderText,
        splitLines_append_newline _ _ (renderLine_no_newline r hr),
        ih hrest (by simp)]
      simp

theorem lineMatches_line_eq (l : List Char) (ln : ℕ) :
    ∀ p ∈ lineMatches l ln, p.line = ln := by
  intro p hp
  unfold lineMatches at hp
  rcases List.mem_filterMap.mp hp with ⟨m, _, hm⟩
  by_cases hr : 1 ≤ m.1 ∧ m.1 ≤ 18
  · rw [if_pos hr] at hm
    cases hm
    rfl
  · rw [if_neg hr] at hm
    cases hm

theorem posLoop_line_lower_bound (ls : List (List Char)) :
    ∀ k, ∀ p ∈ posLoop ls k, k ≤ p.line := by
  induction ls with
  | nil => intro k p hp; simp [posLoop] at hp
  | cons l rest ih =>
    intro k p hp
    rcases List.mem_append.mp hp with hp | hp
    · rw [lineMatches_line_eq l k p hp]
    · have := ih (k + 1) p hp
      omega

/-- Within one rendered line the matches are sorted by index; across lines
the line numbers strictly increase, so the `positionsWithLines` array of a
clean rendering is already sorted by the comparator. -/
theorem posLoop_render_pairwise (rows : List (List ℕ)) :
    ∀ k, (∀ r ∈ rows, ∀ n ∈ r, 1 ≤ n ∧ n ≤ 18) →
      (posLoop (rows.map renderLine) k).Pairwise posLe := by
  induction rows with
  | nil => intro k h; simp [posLoop]
  | cons r rest ih =>
    intro k h
    have hr := h r (by simp)
    have hrest : ∀ q ∈ rest, ∀ n ∈ q, 1 ≤ n ∧ n ≤ 18 :=
      fun q hq => h q (by simp [hq])
    rw [List.map_cons, posLoop]
    rw [List.pairwise_append]
    refine ⟨?_, ih (k + 1) hrest, ?_⟩
    · rw [lineMatches_renderLine r k hr]
      have hpw := expectedScan_pairwise r 0
      refine (List.pairwise_map.mpr ?_)
      refine hpw.imp ?_
      intro a b hab
      exact Or.inr ⟨rfl, Nat.le_of_lt hab⟩
    · intro a ha b hb
      have hla := lineMatches_line_eq (renderLine r) k a ha
      have hlb := posLoop_line_lower_bound (rest.map renderLine) (k + 1) b hb
      exact Or.inl (by omega)

/-- The placement values of the `positionsWithLines` array of a rendering,
in array order, are exactly the rendered values in grid order. -/
theorem posLoop_render_values (rows : List (List ℕ)) :
    ∀ k, (∀ r ∈ rows, ∀ n ∈ r, 1 ≤ n ∧ n ≤ 18) →
      (posLoop (rows.map renderLine) k).map (fun p => p.placement) = rows.flatten := by
  induction rows with
  | nil => intro k h; simp [posLoop]
  | cons r rest ih =>
    intro k h
    have hr := h r (by simp)
    have hrest : ∀ q ∈ rest, ∀ n ∈ q, 1 ≤ n ∧ n ≤ 18 :=
      fun q hq => h q (by simp [hq])
    rw [List.map_cons, posLoop, List.map_append, ih (k + 1) hrest,
      lineMatches_renderLine r k hr, List.flatten_cons, List.map_map]
    have : ((fun p : Pos => p.placement) ∘ fun m : ℕ × ℕ => (⟨m.1, k, m.2⟩ : Pos)) =
        Prod.fst := rfl
    rw [this, expectedScan_map_fst]

/-- **C1.**  For every 15-element array `P` of values in `[1,18]`, feeding a
clean rendering of `P` in grid order (one ordinal token per slot, lines
top-to-bottom, tokens left-to-right within a line, here represented by any
split of `P` into rows) through `parseOCRTextFallback` yields exactly `P`
in slot order. -/
theorem c1_text_fallback_roundtrip (P : List ℕ) (rows : List (List ℕ))
    (W H : ℚ) (hjoin : rows.flatten = P) (hlen : P.length = 15)
    (hval : ∀ n ∈ P, 1 ≤ n ∧ n ≤ 18) :
    parseOCRTextFallback (renderText rows) W H = P.map Placement.val := by
  have hrows : ∀ r ∈ rows, ∀ n ∈ r, 1 ≤ n ∧ n ≤ 18 := by
    intro r hr n hn
    exact hval n (hjoin ▸ List.mem_flatten.mpr ⟨r, hr, hn⟩)
  have hne : rows ≠ [] := by
    intro h
    rw [h] at hjoin
    rw [← hjoin] at hlen
    simp at hlen
  unfold parseOCRTextFallback positionsWithLines
  dsimp only
  rw [splitLines_renderText rows hrows hne,
    List.Sorted.insertionSort_eq (posLoop_render_pairwise rows 1 hrows),
    posLoop_render_values rows 1 hrows, hjoin,
    List.take_of_length_le (le_of_eq hlen)]
  simp [hlen]

/-- **C1 witness.**  The single line
`"1st 2nd 3rd 4th 5th 6th 7th 8th 9th 10th 11th 12th 13th 14th 15th"`
is the rendering of `[1,...,15]` on one row, and the fallback parser maps
it back to `[1,...,15]`. -/
theorem c1_text_fallback_roundtrip_witness :
    renderText [[1, 2, 3, 4, 5, 6, 7, 8, 9, 10, 11, 12, 13, 14, 15]] =
        "1st 2nd 3rd 4th 5th 6th 7th 8th 9th 10th 11th 12th 13th 14th 15th".toList ∧
      parseOCRTextFallback
          (renderText [[1, 2, 3, 4, 5, 6, 7, 8, 9, 10, 11, 12, 13, 14, 15]]) 1080 2412 =
        [1, 2, 3, 4, 5, 6, 7, 8, 9, 10, 11, 12, 13, 14, 15].map Placement.val :=
  ⟨by decide,
    c1_text_fallback_roundtrip [1, 2, 3, 4, 5, 6, 7, 8, 9, 10, 11, 12, 13, 14, 15]
      [[1, 2, 3, 4, 5, 6, 7, 8, 9, 10, 11, 12, 13, 14, 15]] 1080 2412
      (by decide) (by decide) (by decide)⟩

/-! ### Lemmas: array-assignment loops -/

theorem foldl_set_length {α β : Type} (f : α → ℕ) (g : α → β) (l : List α) :
    ∀ init : List β,
      (l.foldl (fun acc r => acc.set (f r) (g r)) init).length = init.length := by
  induction l with
  | nil => intro init; rfl
  | cons a t ih =>
    intro init
    rw [List.foldl_cons, ih, List.length_set]

theorem foldl_pick_some {α : Type} (f : α → ℕ) (i : ℕ) (t : List α) :
    ∀ r0 : α,
      t.foldl (fun a r => if f r = i then some r else a) (some r0) ≠ none := by
  induction t with
  | nil => intro r0; simp
  | cons b u ihu =>
    intro r0
    rw [List.foldl_cons]
    by_cases hb : f b = i
    · rw [if_pos hb]; exact ihu b
    · rw [if_neg hb]; exact ihu r0

/-- An assignment loop realizes last-write-wins: slot `i` of the result
holds the image of the last element written to `i`, and the initial value
when no element writes to `i`. -/
theorem foldl_set_getElem {α β : Type} (f : α → ℕ) (g : α → β) (l : List α) :
    ∀ (init : List β) (acc : Option α) (i : ℕ), i < init.length →
      (∀ r, acc = some r → init[i]? = some (g r)) →
      (l.foldl (fun acc2 r => acc2.set (f r) (g r)) init)[i]? =
        match l.foldl (fun a r => if f r = i then some r else a) acc with
        | some r => some (g r)
        | none => init[i]? := by
  induction l with
  | nil =>
    intro init acc i hi hinv
    cases acc with
    | none => rfl
    | some r => simpa using hinv r rfl
  | cons a t ih =>
    intro init acc i hi hinv
    rw [List.foldl_cons, List.foldl_cons]
    by_cases hfa : f a = i
    · rw [if_pos hfa]
      have h1 := ih (init.set (f a) (g a)) (some a) i
        (by rw [List.length_set]; exact hi) ?_
      · rw [h1]
        cases ht : t.foldl (fun acc2 r => if f r = i then some r else acc2) (some a) with
        | none => exact absurd ht (foldl_pick_some f i t a)
        | some r => rfl
      · intro r hr
        cases hr
        rw [hfa, List.getElem?_set_eq_of_lt _ hi]
    · rw [if_neg hfa]
      have h1 := ih (init.set (f a) (g a)) acc i
        (by rw [List.length_set]; exact hi) ?_
      · rw [h1, List.getElem?_set_ne hfa]
      · intro r hr
        rw [List.getElem?_set_ne hfa]
        exact hinv r hr

theorem parseOCRTextFallback_length (text : List Char) (W H : ℚ) :
    (parseOCRTextFallback text W H).length = 15 := by
  unfold parseOCRTextFallback
  dsimp only
  rw [List.length_append, List.length_replicate, List.length_map, List.length_take]
  omega

theorem applyRankings_length (rankings : List Ranking) (W top bottom : ℚ) :
    (applyRankings rankings W top bottom).length = 15 := by
  unfold applyRankings
  rw [foldl_set_length, List.length_replicate]

theorem parseOCRWithPositions_length (d : OCRData) :
    (parseOCRWithPositions d).length = 15 := by
  unfold parseOCRWithPositions
  dsimp only
  cases gatheredWords d with
  | none => exact parseOCRTextFallback_length _ _ _
  | some ws =>
    by_cases h : ws.length = 0
    · simp only [h, if_pos]
      exact parseOCRTextFallback_length _ _ _
    · simp only [h, if_neg, if_false]
      exact applyRankings_length _ _ _ _

/-- **C2.**  Every resolver path emits exactly 15 placements, for every
input: the per-region pass, the whole-image positional parse (with or
without word data), and the text-only fallback.  All three are total
functions of their recognition input, so none can fail on incomplete
recognition. -/
theorem c2_resolver_length_always_15 :
    (∀ attempts : Fin 15 → List (Except String (List Char)),
        (processFocusedRankRegions attempts).length = 15) ∧
      (∀ d : OCRData, (parseOCRWithPositions d).length = 15) ∧
      (∀ (text : List Char) (W H : ℚ),
        (parseOCRTextFallback text W H).length = 15) :=
  ⟨fun attempts => by
      unfold processFocusedRankRegions
      rw [List.length_ofFn],
    parseOCRWithPositions_length,
    parseOCRTextFallback_length⟩

/-- **C4.**  The orchestrator accepts the per-region placements as final
exactly when at least 5 of the 15 slots hold a real number in `[1,18]`;
otherwise it proceeds to the whole-image pass and returns that pass's
parse (or its recognition error). -/
theorem c4_acceptance_threshold
    (attempts : Fin 15 → List (Except String (List Char)))
    (whole : Except String OCRData) :
    (5 ≤ countResolved (processFocusedRankRegions attempts) →
      processImageWithOCR attempts whole =
        Except.ok (processFocusedRankRegions attempts)) ∧
      (countResolved (processFocusedRankRegions attempts) < 5 →
        processImageWithOCR attempts whole =
          match whole with
          | .error e => .error e
          | .ok d => .ok (parseOCRWithPositions d)) := by
  constructor
  · intro h
    unfold processImageWithOCR
    rw [if_pos h]
  · intro h
    unfold processImageWithOCR
    rw [if_neg (by omega)]

/-- **C4 witness.**  With every region reading `"1st"`, 15 ≥ 5 slots are
resolved and the per-region result is returned even though the whole-image
stage would fail. -/
theorem c4_acceptance_threshold_witness :
    5 ≤ countResolved (processFocusedRankRegions
        fun _ => [Except.ok ['1', 's', 't']]) ∧
      processImageWithOCR (fun _ => [Except.ok ['1', 's', 't']])
          (Except.error "engine unavailable") =
        Except.ok (processFocusedRankRegions fun _ => [Except.ok ['1', 's', 't']]) :=
  ⟨by decide,
    (c4_acceptance_threshold (fun _ => [Except.ok ['1', 's', 't']])
      (Except.error "engine unavailable")).1 (by decide)⟩

/-- **C9.**  The persistence boundary rejects the sentinel: a 15-element
placements array containing the sentinel or an out-of-range integer fails
`validatePlacements` and makes `addRace` throw, and every stored record
holds 15 integers in `[1,18]`. -/
theorem c9_persistence_rejects_sentinel :
    (∀ ps : List RawPlacement, ps.length = 15 →
        (RawPlacement.sentinel ∈ ps ∨
          ∃ n, RawPlacement.int n ∈ ps ∧ (n < 1 ∨ 18 < n)) →
        validatePlacements ps = false ∧ ∃ e, addRace ps = Except.error e) ∧
      ∀ ps out, addRace ps = Except.ok out →
        out.length = 15 ∧ ∀ n ∈ out, 1 ≤ n ∧ n ≤ 18 := by
  constructor
  · intro ps hlen hbad
    constructor
    · unfold validatePlacements
      rw [List.all_eq_false]
      rcases hbad with hs | ⟨n, hmem, hout⟩
      · exact ⟨RawPlacement.sentinel, hs, by simp⟩
      · refine ⟨RawPlacement.int n, hmem, ?_⟩
        simp only [Bool.not_eq_true, decide_eq_false_iff_not]
        omega
    · refine ⟨"All placements must be numbers between 1 and 18", ?_⟩
      unfold addRace
      rw [if_neg (by omega)]
      rw [if_pos]
      rw [List.any_eq_true]
      rcases hbad with hs | ⟨n, hmem, hout⟩
      · exact ⟨RawPlacement.sentinel, hs, by simp [jsParseInt]⟩
      · refine ⟨RawPlacement.int n, hmem, ?_⟩
        simp only [jsParseInt, decide_eq_true_eq]
        omega
  · intro ps out hok
    unfold addRace at hok
    by_cases hlen : ¬ ps.length = 15
    · rw [if_pos hlen] at hok
      cases hok
    · rw [if_neg hlen] at hok
      by_cases hany : ps.any fun p =>
          match jsParseInt p with
          | none => true
          | some n => decide (n < 1 ∨ 18 < n)
      · rw [if_pos hany] at hok
        cases hok
      · rw [if_neg hany] at hok
        cases hok
        constructor
        · rw [List.length_map]
          omega
        · intro n hn
          rcases List.mem_map.mp hn with ⟨p, hp, hpn⟩
          rw [List.any_eq_true] at hany
          push_neg at hany
          have hgood := hany p hp
          cases p with
          | sentinel => simp [jsParseInt] at hgood
          | int m =>
            simp only [jsParseInt, decide_eq_true_eq] at hgood
            simp only [jsParseInt, Option.getD_some] at hpn
            have : ¬ (m < 1 ∨ 18 < m) := by
              intro hcon
              simp [hcon] at hgood
            omega

/-- **C9 witness.**  A 15-element array whose last entry is the sentinel is
rejected by validation and makes `addRace` throw. -/
theorem c9_persistence_rejects_sentinel_witness :
    validatePlacements
        (List.replicate 14 (RawPlacement.int 3) ++ [RawPlacement.sentinel]) = false ∧
      ∃ e, addRace
          (List.replicate 14 (RawPlacement.int 3) ++ [RawPlacement.sentinel]) =
        Except.error e :=
  c9_persistence_rejects_sentinel.1
    (List.replicate 14 (RawPlacement.int 3) ++ [RawPlacement.sentinel])
    (by decide) (Or.inl (by decide))

/-- Slot contents of the whole-image assignment loop: the last ranking
mapped there, or the untouched `'E'` default. -/
theorem applyRankings_getElem (rankings : List Ranking) (W top bottom : ℚ)
    (i : ℕ) (hi : i < 15) :
    (applyRankings rankings W top bottom)[i]? =
      match lastHit rankings W top bottom i with
      | some r => some (Placement.val r.rank)
      | none => some Placement.unknown := by
  unfold applyRankings lastHit
  rw [foldl_set_getElem (fun r => slotFor r W top bottom)
    (fun r => Placement.val r.rank) rankings (List.replicate 15 Placement.unknown)
    none i (by rw [List.length_replicate]; exact hi) (by intro r h; cases h)]
  cases rankings.foldl
      (fun a r => if slotFor r W top bottom = i then some r else a) none with
  | none =>
    rw [List.getElem?_replicate]
    simp [hi]
  | some r => rfl

theorem processFocusedRankRegions_getElem
    (attempts : Fin 15 → List (Except String (List Char))) (i : ℕ) (hi : i < 15) :
    (processFocusedRankRegions attempts)[i]? =
      some (match regionDetect (attempts ⟨i, hi⟩) with
            | some v => Placement.val v
            | none => Placement.unknown) := by
  unfold processFocusedRankRegions
  rw [List.getElem?_eq_getElem (by rw [List.length_ofFn]; exact hi),
    List.getElem_ofFn]

theorem parseRegionResults_loop_unknown (i : ℕ) :
    ∀ (rs : List RegionResult) (acc : List Placement),
      acc[i]? = some Placement.unknown →
      (∀ r ∈ rs, r.region = i → r.numbers = []) →
      (rs.foldl
          (fun acc2 r =>
            if r.region < 15 ∧ ¬ r.numbers = [] then
              match (sortNumbers r.numbers).head? with
              | some best => acc2.set r.region (Placement.val best.value)
              | none => acc2
            else acc2)
          acc)[i]? = some Placement.unknown := by
  intro rs
  induction rs with
  | nil => intro acc hacc hnone; exact hacc
  | cons r rest ih =>
    intro acc hacc hnone
    rw [List.foldl_cons]
    refine ih _ ?_ fun q hq => hnone q (by simp [hq])
    by_cases hc : r.region < 15 ∧ ¬ r.numbers = []
    · have hne : ¬ r.region = i := by
        intro he
        exact hc.2 (hnone r (by simp) he)
      rw [if_pos hc]
      cases (sortNumbers r.numbers).head? with
      | none => exact hacc
      | some best => rw [List.getElem?_set_ne hne]; exact hacc
    · rw [if_neg hc]
      exact hacc

/-- **C3.**  An unresolved slot always carries the explicit sentinel, which
is distinct from every numeric value: in the per-region pass a region with
no detection stays `unknown`; in the whole-image assignment loop a slot no
ranking maps to stays `unknown`; in the text-only fallback the slots beyond
the found matches stay `unknown`; and in `parseRegionResults` a region with
no candidates stays `unknown`.  No path writes a fabricated number. -/
theorem c3_unresolved_slots_are_sentinel :
    (∀ n : ℕ, Placement.unknown ≠ Placement.val n) ∧
      (∀ (attempts : Fin 15 → List (Except String (List Char)))
          (i : ℕ) (hi : i < 15), regionDetect (attempts ⟨i, hi⟩) = none →
          (processFocusedRankRegions attempts)[i]? = some Placement.unknown) ∧
      (∀ (rankings : List Ranking) (W top bottom : ℚ) (i : ℕ), i < 15 →
          lastHit rankings W top bottom i = none →
          (applyRankings rankings W top bottom)[i]? = some Placement.unknown) ∧
      (∀ (text : List Char) (W H : ℚ) (i : ℕ), i < 15 →
          (positionsWithLines text).length ≤ i →
          (parseOCRTextFallback text W H)[i]? = some Placement.unknown) ∧
      ∀ (rs : List RegionResult) (i : ℕ), i < 15 →
        (∀ r ∈ rs, r.region = i → r.numbers = []) →
        (parseRegionResults rs)[i]? = some Placement.unknown := by
  refine ⟨?_, ?_, ?_, ?_, ?_⟩
  · intro n h
    cases h
  · intro attempts i hi hnone
    rw [processFocusedRankRegions_getElem attempts i hi, hnone]
  · intro rankings W top bottom i hi hnone
    rw [applyRankings_getElem rankings W top bottom i hi, hnone]
  · intro text W H i hi hlen
    unfold parseOCRTextFallback
    dsimp only
    have hslen : (List.insertionSort posLe (positionsWithLines text)).length =
        (positionsWithLines text).length := List.length_insertionSort _ _
    set l := List.insertionSort posLe (positionsWithLines text) with hl
    have hfin : ((l.map fun p => p.placement).take 15).length ≤ i := by
      rw [List.length_take, List.length_map, hslen]
      omega
    rw [List.getElem?_append_right (le_trans (by rw [List.length_map]) hfin)]
    rw [List.getElem?_replicate]
    rw [if_pos]
    rw [List.length_map]
    have h1 : (List.map (fun p => p.placement) l).length =
        (positionsWithLines text).length := by
      rw [List.length_map, hslen]
    rw [List.length_take, h1]
    omega
  · intro rs i hi hnone
    unfold parseRegionResults
    have base : (List.replicate 15 Placement.unknown)[i]? = some Placement.unknown := by
      rw [List.getElem?_replicate]
      simp [hi]
    exact parseRegionResults_loop_unknown i rs (List.replicate 15 Placement.unknown)
      base hnone

/-- **C3 witness.**  When recognition throws for a region's only attempt,
that region's slot is the sentinel. -/
theorem c3_unresolved_slots_are_sentinel_witness :
    (processFocusedRankRegions
        fun _ => [Except.error "recognition failed"])[0]? =
      some Placement.unknown :=
  c3_unresolved_slots_are_sentinel.2.1
    (fun _ => [Except.error "recognition failed"]) 0 (by omega) (by decide)

/-- **C10.**  In whole-image spatial mode the value of a slot is that of
the last accepted candidate (in word-scan order) mapped to it: the
assignment loop overwrites unconditionally, comparing neither type nor
confidence. -/
theorem c10_spatial_last_write_wins (d : OCRData) (ws : List Word)
    (hws : gatheredWords d = some ws) (hne : ¬ ws.length = 0)
    (i : ℕ) (hi : i < 15) :
    (parseOCRWithPositions d)[i]? =
      match lastHit
          (extractRankings ws (jsOr d.height 2412 * (45 / 100))
            (jsOr d.height 2412 * (75 / 100)))
          (jsOr d.width 1080) (jsOr d.height 2412 * (45 / 100))
          (jsOr d.height 2412 * (75 / 100)) i with
      | some r => some (Placement.val r.rank)
      | none => some Placement.unknown := by
  unfold parseOCRWithPositions
  dsimp only
  rw [hws]
  dsimp only
  rw [if_neg hne]
  exact applyRankings_getElem _ _ _ _ i hi

/-- **C10 witness.**  Two accepted candidates map to slot 0: first the
ordinal `"3rd"`, then the bare number `"7"`; the slot ends up holding `7`,
the later candidate in word-scan order. -/
theorem c10_spatial_last_write_wins_witness :
    (parseOCRWithPositions
        (OCRData.mk (some 1000) (some 1000)
          (some [Word.mk "3rd".toList (some (BBox.mk 0 500 10 510)),
                 Word.mk "7".toList (some (BBox.mk 50 500 60 510))])
          none none []))[0]? = some (Placement.val 7) := by
  have h := c10_spatial_last_write_wins
    (OCRData.mk (some 1000) (some 1000)
      (some [Word.mk "3rd".toList (some (BBox.mk 0 500 10 510)),
             Word.mk "7".toList (some (BBox.mk 50 500 60 510))])
      none none [])
    [Word.mk "3rd".toList (some (BBox.mk 0 500 10 510)),
     Word.mk "7".toList (some (BBox.mk 50 500 60 510))]
    rfl (by decide) 0 (by omega)
  rw [h]
  dsimp only at *
  have hw1 : wordRank (jsTrim ['3', 'r', 'd']) = some 3 := by decide
  have hw2 : wordRank (jsTrim ['7']) = some 7 := by decide
  have hex : extractRankings
      [Word.mk "3rd".toList (some (BBox.mk 0 500 10 510)),
       Word.mk "7".toList (some (BBox.mk 50 500 60 510))]
      (jsOr (some 1000) 2412 * (45 / 100)) (jsOr (some 1000) 2412 * (75 / 100)) =
      [Ranking.mk 3 5 505, Ranking.mk 7 55 505] := by
    unfold extractRankings jsOr
    rw [List.filterMap_cons, List.filterMap_cons, List.filterMap_nil]
    norm_num [hw1, hw2]
  rw [hex]
  have hs1 : slotFor (Ranking.mk 3 5 505) (jsOr (some 1000) 1080)
      (jsOr (some 1000) 2412 * (45 / 100)) (jsOr (some 1000) 2412 * (75 / 100)) = 0 := by
    unfold slotFor jsOr
    norm_num
  have hs2 : slotFor (Ranking.mk 7 55 505) (jsOr (some 1000) 1080)
      (jsOr (some 1000) 2412 * (45 / 100)) (jsOr (some 1000) 2412 * (75 / 100)) = 0 := by
    unfold slotFor jsOr
    norm_num
  unfold lastHit
  rw [List.foldl_cons, List.foldl_cons, List.foldl_nil]
  rw [if_pos hs1, if_pos hs2]

/-! ### Lemmas: all emitted values lie in `[1,18]` -/

theorem clampRank_range (n : ℕ) : 1 ≤ clampRank n ∧ clampRank n ≤ 18 := by
  unfold clampRank
  split_ifs <;> omega

theorem detectRankingFromText_range (t : List Char) (v : ℕ)
    (h : detectRankingFromText t = some v) : 1 ≤ v ∧ v ≤ 18 := by
  unfold detectRankingFromText at h
  dsimp only at h
  split_ifs at h <;>
    (rw [Option.some.injEq] at h; rw [← h]; exact clampRank_range _)

theorem regionDetect_range (attempts : List (Except String (List Char)))
    (v : ℕ) (h : regionDetect attempts = some v) : 1 ≤ v ∧ v ≤ 18 := by
  unfold regionDetect at h
  have main : ∀ (l : List (Except String (List Char))) (acc : Option ℕ),
      (∀ w, acc = some w → 1 ≤ w ∧ w ≤ 18) →
      l.foldl
          (fun found a =>
            match found with
            | some w => some w
            | none =>
              match a with
              | .error _ => none
              | .ok s => detectRankingFromText (jsTrim s))
          acc = some v →
      1 ≤ v ∧ v ≤ 18 := by
    intro l
    induction l with
    | nil =>
      intro acc hacc hfold
      exact hacc v hfold
    | cons a rest ih =>
      intro acc hacc hfold
      rw [List.foldl_cons] at hfold
      refine ih _ ?_ hfold
      intro w hw
      cases acc with
      | some u =>
        simp only [Option.some.injEq] at hw
        rw [← hw]
        exact hacc u rfl
      | none =>
        cases a with
        | error e => simp at hw
        | ok s =>
          simp only at hw
          exact detectRankingFromText_range _ _ hw
  exact main attempts none (fun w hw => by cases hw) h

theorem wordRank_range (t : List Char) (v : ℕ) (h : wordRank t = some v) :
    1 ≤ v ∧ v ≤ 18 := by
  unfold wordRank at h
  dsimp only at h
  split at h
  case _ w =>
    split_ifs at h with hr
    · rw [Option.some.injEq] at h
      rw [← h]
      exact hr
  case _ => cases h

theorem extractRankings_range (ws : List Word) (top bottom : ℚ)
    (r : Ranking) (hr : r ∈ extractRankings ws top bottom) :
    1 ≤ r.rank ∧ r.rank ≤ 18 := by
  unfold extractRankings at hr
  rcases List.mem_filterMap.mp hr with ⟨w, hwmem, hw⟩
  cases hb : w.bbox with
  | none =>
    rw [hb] at hw
    cases hw
  | some b =>
    rw [hb] at hw
    dsimp only at hw
    by_cases hband : (b.y0 + b.y1) / 2 < top ∨ bottom < (b.y0 + b.y1) / 2
    · rw [if_pos hband] at hw
      cases hw
    · rw [if_neg hband] at hw
      cases hv : wordRank (jsTrim w.text) with
      | none =>
        rw [hv] at hw
        cases hw
      | some u =>
        rw [hv] at hw
        simp only [Option.some.injEq] at hw
        rw [← hw]
        exact wordRank_range _ _ hv

theorem foldl_set_mem {α β : Type} (f : α → ℕ) (g : α → β) (P : β → Prop) :
    ∀ l : List α, (∀ r ∈ l, P (g r)) →
      ∀ init : List β, (∀ p ∈ init, P p) →
        ∀ p ∈ l.foldl (fun acc r => acc.set (f r) (g r)) init, P p := by
  intro l
  induction l with
  | nil =>
    intro hl init hinit p hp
    exact hinit p hp
  | cons a rest ih =>
    intro hl init hinit p hp
    rw [List.foldl_cons] at hp
    refine ih (fun r hr => hl r (by simp [hr])) _ ?_ p hp
    intro q hq
    rcases List.mem_or_eq_of_mem_set hq with hq | hq
    · exact hinit q hq
    · rw [hq]
      exact hl a (by simp)

theorem posLoop_placement_range (ls : List (List Char)) :
    ∀ (k : ℕ) (q : Pos), q ∈ posLoop ls k → 1 ≤ q.placement ∧ q.placement ≤ 18 := by
  induction ls with
  | nil =>
    intro k q hq
    simp [posLoop] at hq
  | cons l rest ih =>
    intro k q hq
    rcases List.mem_append.mp hq with hq | hq
    · unfold lineMatches at hq
      rcases List.mem_filterMap.mp hq with ⟨m, _, hm⟩
      by_cases hc : 1 ≤ m.1 ∧ m.1 ≤ 18
      · rw [if_pos hc] at hm
        simp only [Option.some.injEq] at hm
        rw [← hm]
        exact hc
      · rw [if_neg hc] at hm
        cases hm
    · exact ih _ q hq

theorem inRangePlacement_fallback (text : List Char) (W H : ℚ) :
    ∀ p ∈ parseOCRTextFallback text W H,
      p = Placement.unknown ∨ ∃ v, p = Placement.val v ∧ 1 ≤ v ∧ v ≤ 18 := by
  intro p hp
  unfold parseOCRTextFallback at hp
  dsimp only at hp
  rcases List.mem_append.mp hp with hp | hp
  · rcases List.mem_map.mp hp with ⟨n, hn, hpn⟩
    have hn2 : n ∈ List.map (fun q => q.placement)
        (List.insertionSort posLe (positionsWithLines text)) :=
      List.mem_of_mem_take hn
    rcases List.mem_map.mp hn2 with ⟨q, hq, hqn⟩
    have hq2 : q ∈ positionsWithLines text :=
      (List.perm_insertionSort posLe (positionsWithLines text)).subset hq
    have hrange := posLoop_placement_range (splitLines text) 1 q hq2
    right
    refine ⟨q.placement, ?_, hrange⟩
    rw [← hpn, ← hqn]
  · left
    exact List.eq_of_mem_replicate hp

/-- **C5.**  Parsed integers outside `[1,18]` are discarded by the
whole-image patterns and by the fallback; only `clampRank` clamps, and its
input patterns guarantee a 1-2-digit token (the documented exception).
Consequently every numeric value in a final placement set of any mode lies
in `[1,18]`. -/
theorem c5_values_in_range :
    (∀ (t : List Char) (v : ℕ), detectRankingFromText t = some v →
        1 ≤ v ∧ v ≤ 18) ∧
      (∀ (t : List Char) (v : ℕ), wordRank t = some v → 1 ≤ v ∧ v ≤ 18) ∧
      (∀ attempts : Fin 15 → List (Except String (List Char)),
        ∀ p ∈ processFocusedRankRegions attempts,
          p = Placement.unknown ∨ ∃ v, p = Placement.val v ∧ 1 ≤ v ∧ v ≤ 18) ∧
      (∀ d : OCRData, ∀ p ∈ parseOCRWithPositions d,
          p = Placement.unknown ∨ ∃ v, p = Placement.val v ∧ 1 ≤ v ∧ v ≤ 18) ∧
      ∀ (text : List Char) (W H : ℚ), ∀ p ∈ parseOCRTextFallback text W H,
        p = Placement.unknown ∨ ∃ v, p = Placement.val v ∧ 1 ≤ v ∧ v ≤ 18 := by
  refine ⟨detectRankingFromText_range, wordRank_range, ?_, ?_,
    inRangePlacement_fallback⟩
  · intro attempts p hp
    unfold processFocusedRankRegions at hp
    rcases (List.mem_ofFn _ _).mp hp with ⟨i, hi⟩
    dsimp only at hi
    cases hd : regionDetect (attempts i) with
    | none =>
      rw [hd] at hi
      left
      exact hi.symm
    | some v =>
      rw [hd] at hi
      right
      exact ⟨v, hi.symm, regionDetect_range _ _ hd⟩
  · intro d p hp
    unfold parseOCRWithPositions at hp
    dsimp only at hp
    cases hg : gatheredWords d with
    | none =>
      rw [hg] at hp
      exact inRangePlacement_fallback _ _ _ p hp
    | some ws =>
      rw [hg] at hp
      dsimp only at hp
      by_cases hlen : ws.length = 0
      · rw [if_pos hlen] at hp
        exact inRangePlacement_fallback _ _ _ p hp
      · rw [if_neg hlen] at hp
        unfold applyRankings at hp
        refine foldl_set_mem _ _
          (fun q => q = Placement.unknown ∨ ∃ v, q = Placement.val v ∧ 1 ≤ v ∧ v ≤ 18)
          _ ?_ _ ?_ p hp
        · intro r hr
          exact Or.inr ⟨r.rank, rfl, extractRankings_range _ _ _ r hr⟩
        · intro q hq
          exact Or.inl (List.eq_of_mem_replicate hq)

/-- **C5 witness.**  `detectRankingFromText` clamps the 2-digit misread
`"25"` to 18 and `wordRank` keeps `"7"`; both outputs lie in `[1,18]`. -/
theorem c5_values_in_range_witness :
    (1 ≤ 18 ∧ 18 ≤ 18) ∧ (1 ≤ 7 ∧ 7 ≤ 18) :=
  ⟨c5_values_in_range.1 ['2', '5'] 18 (by decide),
    c5_values_in_range.2.1 ['7'] 7 (by decide)⟩

/-! ### Lemmas: the candidate sort of `parseRegionResults` -/

theorem candLe_of_ordinal (a b : Candidate)
    (ha : a.typ = CandType.ordinal) (hcb : b.confidence = confOf b.typ)
    (hca : a.confidence = confOf a.typ) : candLe a b := by
  unfold candLe cmpCand
  cases hb : b.typ with
  | ordinal =>
    rw [if_neg (by simp [ha, hb]), if_neg (by simp [ha, hb])]
    rw [hca, hcb, ha, hb]
    norm_num
  | plain =>
    rw [if_pos (by simp [ha, hb])]
    norm_num

theorem not_candLe_plain_ordinal (a b : Candidate)
    (ha : ¬ a.typ = CandType.ordinal) (hb : b.typ = CandType.ordinal) :
    ¬ candLe a b := by
  unfold candLe cmpCand
  rw [if_neg (by simp [ha]), if_pos (by simp [ha, hb])]
  norm_num

theorem candLe_plain_plain (a b : Candidate)
    (ha : ¬ a.typ = CandType.ordinal) (hb : ¬ b.typ = CandType.ordinal)
    (hca : a.confidence = confOf a.typ) (hcb : b.confidence = confOf b.typ) :
    candLe a b := by
  unfold candLe cmpCand
  rw [if_neg (by simp [ha]), if_neg (by simp [hb])]
  rw [hca, hcb]
  cases hta : a.typ with
  | ordinal => exact absurd hta ha
  | plain =>
    cases htb : b.typ with
    | ordinal => exact absurd htb hb
    | plain => norm_num

theorem orderedInsert_plain (a : Candidate) (ha : ¬ a.typ = CandType.ordinal)
    (hca : a.confidence = confOf a.typ) :
    ∀ (X Y : List Candidate), (∀ b ∈ X, b.typ = CandType.ordinal) →
      (∀ b ∈ Y, ¬ b.typ = CandType.ordinal ∧ b.confidence = confOf b.typ) →
      List.orderedInsert candLe a (X ++ Y) = X ++ a :: Y := by
  intro X
  induction X with
  | nil =>
    intro Y hX hY
    cases Y with
    | nil => rfl
    | cons b Yt =>
      have hb := hY b (by simp)
      simp only [List.nil_append, List.orderedInsert,
        if_pos (candLe_plain_plain a b ha hb.1 hca hb.2)]
  | cons x Xt ih =>
    intro Y hX hY
    have hx := hX x (by simp)
    rw [List.cons_append, List.orderedInsert,
      if_neg (not_candLe_plain_ordinal a x ha hx), List.cons_append,
      ih Y (fun b hb => hX b (by simp [hb])) hY]

/-- On a well-formed candidate list (confidence determined by type) the
stable sort moves the ordinal candidates, in first-found order, before the
other candidates, which also keep their order. -/
theorem sortNumbers_two_class (cs : List Candidate)
    (hwf : ∀ c ∈ cs, c.confidence = confOf c.typ) :
    sortNumbers cs =
      (cs.filter fun c => c.typ = CandType.ordinal) ++
        (cs.filter fun c => ¬ c.typ = CandType.ordinal) := by
  unfold sortNumbers
  induction cs with
  | nil => rfl
  | cons a t ih =>
    have ha := hwf a (by simp)
    have ht : ∀ c ∈ t, c.confidence = confOf c.typ :=
      fun c hc => hwf c (by simp [hc])
    rw [List.insertionSort, ih ht]
    by_cases hord : a.typ = CandType.ordinal
    · have hfirst : ∀ l : List Candidate,
          (∀ b ∈ l, b.confidence = confOf b.typ) →
          List.orderedInsert candLe a l = a :: l := by
        intro l hl
        cases l with
        | nil => rfl
        | cons b lt =>
          rw [List.orderedInsert,
            if_pos (candLe_of_ordinal a b hord (hl b (by simp)) ha)]
      rw [hfirst _ ?_, List.filter_cons_of_pos (by simp [hord]),
        List.filter_cons_of_neg (by simp [hord]), List.cons_append]
      intro b hb
      rcases List.mem_append.mp hb with hb | hb
      · exact ht b (List.mem_of_mem_filter hb)
      · exact ht b (List.mem_of_mem_filter hb)
    · rw [orderedInsert_plain a hord ha _ _ ?_ ?_,
        List.filter_cons_of_neg (by simp [hord]),
        List.filter_cons_of_pos (by simp [hord])]
      · intro b hb
        have := List.of_mem_filter hb
        simpa using this
      · intro b hb
        refine ⟨by simpa using List.of_mem_filter hb, ht b (List.mem_of_mem_filter hb)⟩

theorem head?_filter_eq_find? {α : Type} (p : α → Bool) (l : List α) :
    (l.filter p).head? = l.find? p := by
  induction l with
  | nil => rfl
  | cons a t ih =>
    by_cases hp : p a
    · rw [List.filter_cons_of_pos hp, List.find?_cons_of_pos _ hp, List.head?_cons]
    · rw [List.filter_cons_of_neg (by simpa using hp),
        List.find?_cons_of_neg _ (by simpa using hp), ih]

/-- **C6 (amended).**  In the per-region resolver `parseRegionResults`,
selection per slot follows the order ordinal > bare-number, with ties
within a type broken by first-found: on a well-formed candidate list the
chosen candidate is the first ordinal one when any exists, and the first
candidate otherwise; the chosen value is what the region's slot receives.
(In whole-image spatial mode, same-slot conflicts are instead resolved by
last write, regardless of type.) -/
theorem c6_region_resolver_priority (cs : List Candidate)
    (hwf : ∀ c ∈ cs, c.confidence = confOf c.typ) :
    ((∃ c ∈ cs, c.typ = CandType.ordinal) →
        (sortNumbers cs).head? = cs.find? fun c => c.typ = CandType.ordinal) ∧
      ((∀ c ∈ cs, ¬ c.typ = CandType.ordinal) →
        (sortNumbers cs).head? = cs.head?) ∧
      ∀ i : ℕ, i < 15 → ¬ cs = [] →
        (parseRegionResults [RegionResult.mk i cs])[i]? =
          ((sortNumbers cs).head?).map fun best => Placement.val best.value := by
  refine ⟨?_, ?_, ?_⟩
  · intro hex
    rw [sortNumbers_two_class cs hwf]
    rcases hex with ⟨c, hc, hctyp⟩
    have hne : cs.filter (fun c => decide (c.typ = CandType.ordinal)) ≠ [] := by
      intro hnil
      have : c ∈ cs.filter fun c => decide (c.typ = CandType.ordinal) :=
        List.mem_filter.mpr ⟨hc, by simp [hctyp]⟩
      rw [hnil] at this
      cases this
    cases hf : cs.filter (fun c => decide (c.typ = CandType.ordinal)) with
    | nil => exact absurd hf hne
    | cons b bt =>
      rw [List.cons_append, List.head?_cons, ← List.head?_cons (l := bt), ← hf,
        head?_filter_eq_find?]
  · intro hall
    rw [sortNumbers_two_class cs hwf]
    have h1 : cs.filter (fun c => decide (c.typ = CandType.ordinal)) = [] := by
      rw [List.filter_eq_nil_iff]
      intro c hc
      simp [hall c hc]
    have h2 : cs.filter (fun c => decide (¬ c.typ = CandType.ordinal)) = cs := by
      rw [List.filter_eq_self]
      intro c hc
      simp [hall c hc]
    rw [h1, h2, List.nil_append]
  · intro i hi hne
    unfold parseRegionResults
    rw [List.foldl_cons, List.foldl_nil]
    dsimp only
    rw [if_pos ⟨hi, hne⟩]
    cases hh : (sortNumbers cs).head? with
    | none =>
      exfalso
      rw [List.head?_eq_none_iff] at hh
      have : cs.length = 0 := by
        have hperm := List.perm_insertionSort candLe cs
        have := hperm.length_eq
        unfold sortNumbers at hh
        rw [hh] at this
        simpa using this.symm
      exact hne (List.length_eq_zero.mp this)
    | some best =>
      rw [List.getElem?_set_eq_of_lt _ (by rw [List.length_replicate]; exact hi)]
      rfl

/-- **C6 counterexample.**  In whole-image mode, slot 0 receives the
ordinal candidate `"3rd"` (value 3) and then the bare-number candidate
`"7"` (value 7, conflicting); the resolver keeps 7, not the ordinal's 3. -/
theorem c6_region_resolver_priority_counterexample :
    (parseOCRWithPositions
          (OCRData.mk (some 1000) (some 1000)
            (some [Word.mk "3rd".toList (some (BBox.mk 0 500 10 510)),
                   Word.mk "7".toList (some (BBox.mk 50 500 60 510))])
            none none []))[0]? = some (Placement.val 7) ∧
      ¬ (parseOCRWithPositions
          (OCRData.mk (some 1000) (some 1000)
            (some [Word.mk "3rd".toList (some (BBox.mk 0 500 10 510)),
                   Word.mk "7".toList (some (BBox.mk 50 500 60 510))])
            none none []))[0]? = some (Placement.val 3) := by
  have key : (parseOCRWithPositions
      (OCRData.mk (some 1000) (some 1000)
        (some [Word.mk "3rd".toList (some (BBox.mk 0 500 10 510)),
               Word.mk "7".toList (some (BBox.mk 50 500 60 510))])
        none none []))[0]? = some (Placement.val 7) := by
    unfold parseOCRWithPositions
    dsimp only
    rw [show gatheredWords
        (OCRData.mk (some 1000) (some 1000)
          (some [Word.mk "3rd".toList (some (BBox.mk 0 500 10 510)),
                 Word.mk "7".toList (some (BBox.mk 50 500 60 510))])
          none none []) =
      some [Word.mk "3rd".toList (some (BBox.mk 0 500 10 510)),
            Word.mk "7".toList (some (BBox.mk 50 500 60 510))] from rfl]
    dsimp only
    rw [if_neg (by decide)]
    rw [applyRankings_getElem _ _ _ _ 0 (by omega)]
    have hw1 : wordRank (jsTrim ['3', 'r', 'd']) = some 3 := by decide
    have hw2 : wordRank (jsTrim ['7']) = some 7 := by decide
    have hex : extractRankings
        [Word.mk "3rd".toList (some (BBox.mk 0 500 10 510)),
         Word.mk "7".toList (some (BBox.mk 50 500 60 510))]
        (jsOr (some 1000) 2412 * (45 / 100)) (jsOr (some 1000) 2412 * (75 / 100)) =
        [Ranking.mk 3 5 505, Ranking.mk 7 55 505] := by
      unfold extractRankings jsOr
      rw [List.filterMap_cons, List.filterMap_cons, List.filterMap_nil]
      norm_num [hw1, hw2]
    rw [hex]
    have hs1 : slotFor (Ranking.mk 3 5 505) (jsOr (some 1000) 1080)
        (jsOr (some 1000) 2412 * (45 / 100)) (jsOr (some 1000) 2412 * (75 / 100)) = 0 := by
      unfold slotFor jsOr
      norm_num
    have hs2 : slotFor (Ranking.mk 7 55 505) (jsOr (some 1000) 1080)
        (jsOr (some 1000) 2412 * (45 / 100)) (jsOr (some 1000) 2412 * (75 / 100)) = 0 := by
      unfold slotFor jsOr
      norm_num
    unfold lastHit
    rw [List.foldl_cons, List.foldl_cons, List.foldl_nil]
    rw [if_pos hs1, if_pos hs2]
  refine ⟨key, ?_⟩
  rw [key]
  intro hcon
  rw [Option.some.injEq] at hcon
  cases hcon

/-- **C6 witness.**  A region whose candidates are a bare number 9 followed
by an ordinal 3: the resolver picks the ordinal's value for the slot. -/
theorem c6_region_resolver_priority_witness :
    (parseRegionResults
        [RegionResult.mk 0
          [Candidate.mk 9 CandType.plain (confOf CandType.plain),
           Candidate.mk 3 CandType.ordinal (confOf CandType.ordinal)]])[0]? =
      some (Placement.val 3) := by
  have hwf : ∀ c ∈ [Candidate.mk 9 CandType.plain (confOf CandType.plain),
      Candidate.mk 3 CandType.ordinal (confOf CandType.ordinal)],
      c.confidence = confOf c.typ := by
    intro c hc
    rcases List.mem_cons.mp hc with hc | hc
    · rw [hc]
    · rcases List.mem_cons.mp hc with hc | hc
      · rw [hc]
      · cases hc
  have h1 := (c6_region_resolver_priority _ hwf).1
    ⟨Candidate.mk 3 CandType.ordinal (confOf CandType.ordinal), by simp, rfl⟩
  have h3 := (c6_region_resolver_priority _ hwf).2.2 0 (by omega) (by simp)
  rw [h3, h1]
  rfl

/-- **C7.**  In whole-image mode an accepted candidate with pixel center
`(x, y)` is assigned to slot
`clamp(floor(((y - gridTop) / (gridBottom - gridTop)) * 3) * 5 +
floor((x / imageWidth) * 5), 0, 14)` (shown here for a single accepted
word, written with the claim's formula); in per-region mode the slot is
the region index itself: each region's slot depends only on that region's
own attempts, with no spatial mapping. -/
theorem c7_spatial_mapping_formula (W H : ℚ) (w : Word) (b : BBox)
    (txt : List Char) (v : ℕ) (hW : ¬ W = 0) (hH : ¬ H = 0)
    (hb : w.bbox = some b) (hv : wordRank (jsTrim w.text) = some v)
    (hband : ¬ ((b.y0 + b.y1) / 2 < H * (45 / 100) ∨
      H * (75 / 100) < (b.y0 + b.y1) / 2)) :
    (parseOCRWithPositions (OCRData.mk (some W) (some H) (some [w]) none none txt) =
        (List.replicate 15 Placement.unknown).set
          ((max 0 (min 14
            (⌊((b.y0 + b.y1) / 2 - H * (45 / 100)) /
                (H * (75 / 100) - H * (45 / 100)) * 3⌋ * 5 +
              ⌊(b.x0 + b.x1) / 2 / W * 5⌋))).toNat)
          (Placement.val v)) ∧
      ∀ (attempts : Fin 15 → List (Except String (List Char))) (i : Fin 15),
        (processFocusedRankRegions attempts)[i.1]? =
          some (match regionDetect (attempts i) with
                | some u => Placement.val u
                | none => Placement.unknown) := by
  constructor
  · unfold parseOCRWithPositions
    dsimp only
    rw [show gatheredWords (OCRData.mk (some W) (some H) (some [w]) none none txt) =
      some [w] from rfl]
    dsimp only
    rw [if_neg (by simp)]
    have hw : jsOr (some W) 1080 = W := by
      unfold jsOr
      dsimp only
      rw [if_neg hW]
    have hh : jsOr (some H) 2412 = H := by
      unfold jsOr
      dsimp only
      rw [if_neg hH]
    rw [hh, hw]
    have hex : extractRankings [w] (H * (45 / 100)) (H * (75 / 100)) =
        [Ranking.mk v ((b.x0 + b.x1) / 2) ((b.y0 + b.y1) / 2)] := by
      unfold extractRankings
      rw [List.filterMap_cons, List.filterMap_nil, hb]
      dsimp only
      rw [if_neg hband, hv]
    rw [hex]
    unfold applyRankings
    rw [List.foldl_cons, List.foldl_nil]
    unfold slotFor
    dsimp only
  · intro attempts i
    exact processFocusedRankRegions_getElem attempts i.1 i.2

/-- **C7 witness.**  A single word `"3rd"` centered at `(5, 505)` in a
1000x1000 image lands in the slot given by the claim's formula. -/
theorem c7_spatial_mapping_formula_witness :
    parseOCRWithPositions
        (OCRData.mk (some 1000) (some 1000)
          (some [Word.mk "3rd".toList (some (BBox.mk 0 500 10 510))])
          none none []) =
      (List.replicate 15 Placement.unknown).set
        ((max 0 (min 14
          (⌊(((500 : ℚ) + 510) / 2 - 1000 * (45 / 100)) /
              (1000 * (75 / 100) - 1000 * (45 / 100)) * 3⌋ * 5 +
            ⌊((0 : ℚ) + 10) / 2 / 1000 * 5⌋))).toNat)
        (Placement.val 3) :=
  (c7_spatial_mapping_formula 1000 1000
    (Word.mk "3rd".toList (some (BBox.mk 0 500 10 510))) (BBox.mk 0 500 10 510)
    [] 3 (by norm_num) (by norm_num) rfl (by decide) (by norm_num)).1

theorem regionDetect_all_error (l : List (Except String (List Char)))
    (h : ∀ a ∈ l, ∃ e, a = Except.error e) : regionDetect l = none := by
  unfold regionDetect
  induction l with
  | nil => rfl
  | cons a rest ih =>
    rw [List.foldl_cons]
    rcases h a (by simp) with ⟨e, he⟩
    rw [he]
    exact ih fun b hb => h b (by simp [hb])

/-- **C8 (amended).**  Per-attempt recognition failures in the per-region
pass are absorbed (all-failing attempts leave all 15 slots unresolved and
the ladder advances); if the whole-image recognition itself throws, the
pipeline reports that single terminal error — it does not reach the
text-only fallback, whose input is the whole-image recognition's text; the
text-only fallback is reached exactly when whole-image recognition
succeeds but no word-level data can be gathered.  Failure is always a
single error value, never a partial placement array. -/
theorem c8_error_ladder :
    (∀ attempts : Fin 15 → List (Except String (List Char)),
        (∀ i : Fin 15, ∀ a ∈ attempts i, ∃ e, a = Except.error e) →
        processFocusedRankRegions attempts = List.replicate 15 Placement.unknown) ∧
      (∀ (attempts : Fin 15 → List (Except String (List Char))) (e : String),
        countResolved (processFocusedRankRegions attempts) < 5 →
        processImageWithOCR attempts (Except.error e) = Except.error e) ∧
      ∀ (attempts : Fin 15 → List (Except String (List Char))) (d : OCRData),
        countResolved (processFocusedRankRegions attempts) < 5 →
        gatheredWords d = none →
        processImageWithOCR attempts (Except.ok d) =
          Except.ok (parseOCRTextFallback d.text (jsOr d.width 1080)
            (jsOr d.height 2412)) := by
  refine ⟨?_, ?_, ?_⟩
  · intro attempts h
    unfold processFocusedRankRegions
    have hfun : (fun i : Fin 15 =>
        match regionDetect (attempts i) with
        | some v => Placement.val v
        | none => Placement.unknown) = fun _ : Fin 15 => Placement.unknown := by
      funext i
      rw [regionDetect_all_error (attempts i) (h i)]
    rw [hfun, List.ofFn_const]
  · intro attempts e hcount
    unfold processImageWithOCR
    rw [if_neg (by omega)]
  · intro attempts d hcount hg
    unfold processImageWithOCR
    rw [if_neg (by omega)]
    dsimp only
    unfold parseOCRWithPositions
    dsimp only
    rw [hg]

/-- **C8 counterexample.**  Recognition throws on every per-region attempt
and the whole-image recognition call also throws; the pipeline then
returns the error — not a text-only parse, which (contrary to the claim's
scenario) has no input to work on in this situation. -/
theorem c8_error_ladder_counterexample :
    processImageWithOCR (fun _ => [Except.error "ocr threw"])
        (Except.error "engine down") = Except.error "engine down" := by
  rfl

/-- **C8 witness.**  All-failing region attempts leave fewer than 5
resolved slots, and a failing whole-image recognition then surfaces as the
single terminal error. -/
theorem c8_error_ladder_witness :
    processImageWithOCR (fun _ => [Except.error "recognition failed"])
        (Except.error "engine unavailable") = Except.error "engine unavailable" :=
  c8_error_ladder.2.1 (fun _ => [Except.error "recognition failed"])
    "engine unavailable" (by decide)
